import Mathlib

/-!
Shallow embedding of the scanning/aggregation core of `src/Storage.py`
(class `FileProcessorThread` and the aggregation/ranking parts of
`FileAnalyzerUI`).

Modelling conventions:
* Machine floats are modelled as exact rationals (`ℚ`).  All sizes that the
  program manipulates (`size / 1024**2`, `size / 1024**3`) are exactly
  representable, and the `f"{x:.2f}"` formatting used when a record is
  emitted is modelled by `pyRound2` (round half to even at two decimal
  places, which is what Python's float formatting performs on the exact
  value of the double).
* The filesystem seen by `os.walk` is a value `List (String × List FileEntry)`:
  the directories in visit order, each with its file names in listing order.
  `os.path.exists` and `os.path.getsize` results are fields of `FileEntry`
  (`present`, `probe`); a `probe` of `none` models the exception branch of
  `get_file_size`, which returns `(None, None)`.
* The mutable flag `cancel_requested` is read at a sequence of program
  points (one read per file during enumeration, one read per iteration of
  the emission loop, numbered consecutively).  It is modelled by
  `cancelAt : Option Nat`: the flag is only ever set, never cleared, so the
  k-th read returns `true` iff `cancelAt = some j` with `j ≤ k`.
* The pause loop (`while self.paused: time.sleep(0.1)`) is modelled in
  isolation by `pauseWaitCode` over the finite sequence of
  `(paused, cancel_requested)` values observed at successive polls.  The
  full-run model `runScan` covers exactly the executions in which every
  pause wait terminates; the cancel value sampled by the check that follows
  the wait is the oracle value at that check's index.
* Wall-clock quantities (`elapsed`, hence the ETA integer) are modelled by
  an oracle `eo : Nat → Nat` giving the computed `remaining` value of
  iteration `i`; they only ever reach the event stream inside message
  strings.
-/

/-- Modelled from `f"{x:.2f}"`: round a rational to 2 decimal places, ties to
even (IEEE/Python formatting behaviour on the exact value). -/
def pyRound2 (q : ℚ) : ℚ :=
  let n : Int := Rat.floor (q * 100)
  let f : ℚ := q * 100 - (n : ℚ)
  if f < 1 / 2 then (n : ℚ) / 100
  else if 1 / 2 < f then ((n : ℚ) + 1) / 100
  else if n % 2 = 0 then (n : ℚ) / 100 else ((n : ℚ) + 1) / 100

/-- One file as seen by the walk: its name, the result of `os.path.exists`
on its joined path, and the result of `os.path.getsize` (`none` models the
exception branch of `get_file_size`, lines 34-39). -/
structure FileEntry where
  name : String
  present : Bool
  probe : Option Nat
  deriving DecidableEq

/-- A candidate kept by the enumeration phase (line 65): name, absolute
path, raw size in MiB and raw size in GiB, before any formatting. -/
structure Cand where
  name : String
  path : String
  mb : ℚ
  gb : ℚ
  deriving DecidableEq

/-- An emitted file record: the tuple sent on `live_file_signal` /
accumulated in `results` (lines 82-83), with the two sizes already rounded
to two decimals by the f-string formatting. -/
structure FileRecord where
  name : String
  path : String
  sizeMb : ℚ
  sizeGb : ℚ
  deriving DecidableEq

/-- The events the thread can emit, in emission order: `live_file_signal`,
`progress_update`, `eta_signal`, `result_ready` and `cancelled`
(lines 20-24). -/
inductive Event where
  | fileDiscovered (r : FileRecord)
  | progress (percent : Nat) (msg : String)
  | eta (msg : String)
  | completed (results : List FileRecord)
  | cancelled
  deriving DecidableEq

/-- Conversion from a kept candidate to the emitted record: models the
`f"{size_mb:.2f}"` / `f"{size_gb:.2f}"` formatting at lines 82-83. -/
def toRecord (c : Cand) : FileRecord :=
  ⟨c.name, c.path, pyRound2 c.mb, pyRound2 c.gb⟩

/-- Models `os.path.dirname` (posixpath): the part of the path before the
last slash, with trailing slashes stripped unless the head is all slashes. -/
def dirname (p : String) : String :=
  let cs := p.data
  match cs.reverse.findIdx? (fun c => c = '/') with
  | none => ""
  | some k =>
    let head := cs.take (cs.length - k)
    if head ≠ [] ∧ ¬ head.all (fun c => c = '/') then
      String.mk ((head.reverse.dropWhile (fun c => c = '/')).reverse)
    else
      String.mk head

/-- Models Python `str.strip`: drop leading and trailing whitespace (for the
ASCII whitespace characters covered by `Char.isWhitespace`). -/
def pyStrip (s : String) : String :=
  String.mk (((s.data.dropWhile Char.isWhitespace).reverse.dropWhile Char.isWhitespace).reverse)

/-- Models Python `str.lower` for the ASCII strings involved. -/
def pyLower (s : String) : String :=
  String.mk (s.data.map Char.toLower)

/-- Models Python `str.endswith`: the second string is a suffix of the
first (`endswith("")` is true). -/
def strEndsWith (s suffix : String) : Bool :=
  suffix.data.isSuffixOf s.data

/-- Models line 30: `[ext.strip().lower() for ext in extensions if ext.strip()]`
(a stripped-empty entry is falsy and is discarded). -/
def initExtensions (extensions : List String) : List String :=
  (extensions.filter (fun e => !(pyStrip e == ""))).map (fun e => pyLower (pyStrip e))

/-- Models line 29: `self.threshold_gb = threshold_gb or 1.0` (a falsy, i.e.
zero, threshold is replaced by 1.0). -/
def effThr (t : ℚ) : ℚ := if t = 0 then 1 else t

/-- Models line 218 of `start_scan`:
`float(self.size_input.text()) if self.size_input.text() else 0.1` — the
input is `none` when the size field is empty, `some t` when it parses to
`t`. -/
def startThreshold (input : Option ℚ) : ℚ :=
  match input with
  | none => 1 / 10
  | some t => t

/-- Models lines 53-55: skip the file when the filter list is non-empty and
no filter entry is a suffix of the lowercased file name. -/
def extSkip (exts : List String) (filename : String) : Bool :=
  !exts.isEmpty && !(exts.any (fun e => strEndsWith (pyLower filename) e))

/-- Value of the `cancel_requested` flag at the k-th read: the flag is only
ever set (line 96), never cleared, so it is `true` from read `j` on when the
cancel request lands between reads `j-1` and `j`. -/
def isCancelled (cancelAt : Option Nat) (k : Nat) : Bool :=
  match cancelAt with
  | none => false
  | some j => decide (j ≤ k)

/-- Flattening of the two nested loops at lines 45-46: the walk's
directories in order, each contributing its `(dirpath, file)` pairs in
listing order. -/
def walkFiles (fs : List (String × List FileEntry)) : List (String × FileEntry) :=
  fs.foldr (fun d acc => d.2.map (fun f => (d.1, f)) ++ acc) []

/-- Per-file body of the enumeration loop, lines 51-65 (everything after
the cancel check): extension filter, `os.path.exists` check, size probe,
strict threshold comparison.  `os.path.abspath(os.path.join(d, name))` is
modelled as `d ++ "/" ++ name` for an absolute, normalized `d`. -/
def keep (thr : ℚ) (exts : List String) (dirpath : String) (f : FileEntry) : Option Cand :=
  let filePath := dirpath ++ "/" ++ f.name
  if extSkip exts f.name then none
  else if !f.present then none
  else
    match f.probe with
    | none => none
    | some bytes =>
      let mb : ℚ := (bytes : ℚ) / (1024 ^ 2)
      let gb : ℚ := (bytes : ℚ) / (1024 ^ 3)
      if thr < gb then some ⟨f.name, filePath, mb, gb⟩ else none

/-- The candidate list a cancel-free enumeration produces (`files_to_process`
at line 65). -/
def enumPure (thr : ℚ) (exts : List String) (files : List (String × FileEntry)) : List Cand :=
  files.filterMap (fun df => keep thr exts df.1 df.2)

/-- Enumeration phase, lines 45-65: one `cancel_requested` read per file
(line 47) before the file is examined; `none` means the loop returned after
emitting `cancelled`.  The second component counts the reads performed. -/
def enumFrom (thr : ℚ) (exts : List String) (cancelAt : Option Nat) :
    Nat → List (String × FileEntry) → Option (List Cand) × Nat
  | _, [] => (some [], 0)
  | k, df :: rest =>
    if isCancelled cancelAt k then (none, 1)
    else
      let r := enumFrom thr exts cancelAt (k + 1) rest
      (match keep thr exts df.1 df.2 with
       | some c => r.1.map (fun cs => c :: cs)
       | none => r.1, r.2 + 1)

/-- Round a rational to the nearest integer, ties to even (the IEEE 754
rounding of a value that sits exactly on the representable grid scaled to
integers). -/
def roundHalfEven (r : ℚ) : ℤ :=
  if r - (Rat.floor r : ℚ) < 1 / 2 then Rat.floor r
  else if 1 / 2 < r - (Rat.floor r : ℚ) then Rat.floor r + 1
  else if Rat.floor r % 2 = 0 then Rat.floor r else Rat.floor r + 1

/-- Round a positive rational to the nearest IEEE 754 binary64 value
(round to nearest, ties to even): the 53-bit significand grid at the
value's own binary exponent `Int.log 2 q = ⌊log₂ q⌋`.  The exponent is
unbounded, which agrees with binary64 for every magnitude the program can
produce (no subnormals, no overflow in `(i + 1) / total * 100`). -/
def floatRound (q : ℚ) : ℚ :=
  if q ≤ 0 then 0
  else
    (roundHalfEven (q / 2 ^ (Int.log 2 q - 52)) : ℚ) * 2 ^ (Int.log 2 q - 52)

/-- Models line 87: `int((i + 1) / total_files * 100)` in Python float
arithmetic: the true division of the two ints is the correctly rounded
binary64 of the exact quotient, the multiplication by 100 rounds again,
and `int(...)` truncates toward zero (floor, for these non-negative
values).  This can differ from exact `(i + 1) * 100 / total` integer
division: at `i + 1 = 29`, `total = 100` the floats give 28, not 29. -/
def progressPercent (i total : Nat) : Nat :=
  (Rat.floor (floatRound (floatRound (((i : ℚ) + 1) / (total : ℚ)) * 100))).toNat

/-- Message of the `progress_update` emitted at line 88. -/
def progressMsg (filename : String) (i total rem : Nat) : String :=
  filename ++ " | " ++ toString (i + 1) ++ " of " ++ toString total ++
    " | ~" ++ toString rem ++ "s left"

/-- Message of the `eta_signal` emitted at line 89. -/
def etaMsg (rem : Nat) : String := "ETA: ~" ++ toString rem ++ "s"

/-- Message of the zero-candidate `progress_update` at line 69 (note the
trailing period in the source string). -/
def noFilesMsg : String := "No files found above threshold."

/-- Events of one non-cancelled iteration of the emission loop, lines 82-89:
the discovered record, the progress update, the ETA signal. -/
def emitStep (total : Nat) (eo : Nat → Nat) (i : Nat) (c : Cand) : List Event :=
  [Event.fileDiscovered (toRecord c),
   Event.progress (progressPercent i total) (progressMsg c.name i total (eo i)),
   Event.eta (etaMsg (eo i))]

/-- Events of emitting a run of candidates with no cancellation, starting
at iteration index `i`. -/
def emitAll (total : Nat) (eo : Nat → Nat) : Nat → List Cand → List Event
  | _, [] => []
  | i, c :: rest => emitStep total eo i c ++ emitAll total eo (i + 1) rest

/-- Emission phase loop, lines 75-93: before each candidate, the (modelled)
pause wait followed by the `cancel_requested` read (check index
`base + i`); on cancel, `cancelled` is emitted and the loop returns; at the
end, `result_ready` carries the accumulated `results`. -/
def emitFrom (total : Nat) (eo : Nat → Nat) (cancelAt : Option Nat) (base : Nat) :
    Nat → List FileRecord → List Cand → List Event
  | _, acc, [] => [Event.completed acc.reverse]
  | i, acc, c :: rest =>
    if isCancelled cancelAt (base + i) then [Event.cancelled]
    else emitStep total eo i c ++ emitFrom total eo cancelAt base (i + 1) (toRecord c :: acc) rest

/-- Number of emission-loop iterations performed before the cancel check
fires, when the checks are numbered from `start` and there are `len`
candidates left. -/
def cutoff (cancelAt : Option Nat) (start len : Nat) : Nat :=
  match cancelAt with
  | none => len
  | some j => min len (j - start)

/-- The whole of `FileProcessorThread.run` (lines 41-93) together with the
constructor normalizations of lines 29-30: enumeration, the zero-candidate
branch, then the emission loop. -/
def runScan (fs : List (String × List FileEntry)) (thr : ℚ) (extsIn : List String)
    (cancelAt : Option Nat) (eo : Nat → Nat) : List Event :=
  let thrEff := effThr thr
  let exts := initExtensions extsIn
  let files := walkFiles fs
  match (enumFrom thrEff exts cancelAt 0 files).1 with
  | none => [Event.cancelled]
  | some cs =>
    if cs.isEmpty then [Event.progress 100 noFilesMsg, Event.completed []]
    else emitFrom cs.length eo cancelAt files.length 0 [] cs

/-- Records carried by the `fileDiscovered` events of a stream, in order. -/
def discovered (es : List Event) : List FileRecord :=
  es.filterMap (fun e =>
    match e with
    | Event.fileDiscovered r => some r
    | _ => none)

/-- Percent values carried by the `progress` events of a stream, in order. -/
def percents (es : List Event) : List Nat :=
  es.filterMap (fun e =>
    match e with
    | Event.progress p _ => some p
    | _ => none)

/-- The pause wait at lines 76-80 of the source, run over the finite list of
`(paused, cancel_requested)` value pairs observed at successive polls: the
loop body reads only `paused` (line 76); the `cancel_requested` read at
line 78 happens only after the loop exits.  Result `none`: the loop is
still spinning after the last observation; `some c`: the loop exited and
the subsequent cancel check read `c`. -/
def pauseWaitCode : List (Bool × Bool) → Option Bool
  | [] => none
  | (p, c) :: rest => if p then pauseWaitCode rest else some c

/-- Modelled from the spec: the pause wait that the specification describes
("busy-wait while `paused` is true, checking `cancelRequested` on every
poll so a cancel during pause is honored").  This definition does not occur
in the source; it exists only to be compared with `pauseWaitCode`. -/
def pauseWaitSpec : List (Bool × Bool) → Option Bool
  | [] => none
  | (p, c) :: rest => if c then some true else if p then pauseWaitSpec rest else some false

/-- Models `FileAnalyzerUI.add_row` (lines 250-264): the aggregator state is
the insertion-ordered association of folder paths to their child records;
a new folder is appended at the end, a child is appended at the end of its
folder's children. -/
def addRow (groups : List (String × List FileRecord)) (r : FileRecord) :
    List (String × List FileRecord) :=
  if groups.any (fun g => g.1 == dirname r.path) then
    groups.map (fun g => if g.1 == dirname r.path then (g.1, g.2 ++ [r]) else g)
  else
    groups ++ [(dirname r.path, [r])]

/-- Ingest a stream of records in order, starting from the empty state
(the `table.clear()` / `folder_items.clear()` of `start_scan`). -/
def aggregate (rs : List FileRecord) : List (String × List FileRecord) :=
  rs.foldl addRow []

/-- One step of first-seen deduplication: append a value unless present. -/
def seenStep (acc : List String) (a : String) : List String :=
  if acc.contains a then acc else acc ++ [a]

/-- First-seen deduplication of a list: the order in which distinct values
first occur. -/
def firstSeen (l : List String) : List String :=
  l.foldl seenStep []

/-- Python's tuple comparison on `(size, label)` pairs as used by
`sorted(zip(sizes, labels), reverse=True)` at line 316: lexicographic,
first on the size, then on the label. -/
def pairLt (a b : ℚ × String) : Prop :=
  a.1 < b.1 ∨ (a.1 = b.1 ∧ a.2 < b.2)

instance : DecidableRel pairLt := fun a b =>
  inferInstanceAs (Decidable (a.1 < b.1 ∨ (a.1 = b.1 ∧ a.2 < b.2)))

/-- The sort order of `sorted(..., reverse=True)`: `a` may precede `b`
exactly when `a` is not lexicographically smaller than `b`. -/
def pairGe (a b : ℚ × String) : Prop := ¬ pairLt a b

instance : DecidableRel pairGe := fun a b => inferInstanceAs (Decidable (¬ pairLt a b))

/-- The `(size, label)` pairs collected from the aggregator state at lines
305-311: groups in insertion order, children in insertion order, size read
back from the rounded text of column 3. -/
def chartData (groups : List (String × List FileRecord)) : List (ℚ × String) :=
  groups.foldr (fun g acc => g.2.map (fun r => (r.sizeGb, r.name)) ++ acc) []

/-- Models line 316: `sorted(zip(sizes, labels), reverse=True)` — a stable
sort under the reversed tuple comparison (elements comparing equal under
the full-tuple order are identical, so any sort realizing the order, here
insertion sort, is extensionally Python's `sorted`). -/
def rank (groups : List (String × List FileRecord)) : List (ℚ × String) :=
  List.insertionSort pairGe (chartData groups)

/-! Helper lemmas. -/

theorem ratFloor_eq_intFloor (q : ℚ) : Rat.floor q = ⌊q⌋ :=
  (Rat.floor_def' q).trans Rat.floor_def.symm

/-- Evaluation rule for `pyRound2` in the round-down case: whenever
`q * 100` lies in `[n, n + 1/2)` the rounded value is `n / 100`. -/
theorem pyRound2_eq_of_bounds (q : ℚ) (n : ℤ) (h1 : (n : ℚ) ≤ q * 100)
    (h2 : q * 100 < (n : ℚ) + 1 / 2) : pyRound2 q = (n : ℚ) / 100 := by
  have hf : Rat.floor (q * 100) = n := by
    rw [ratFloor_eq_intFloor]
    exact Int.floor_eq_iff.2 ⟨h1, lt_of_lt_of_le h2 (by norm_num)⟩
  unfold pyRound2
  rw [hf, if_pos (by linarith)]

/-! Claim theorems, interleaved with the helper lemmas they need. -/

/-- C2 (code bug): the pause wait of the source polls only `paused`
(line 76); the cancel flag is read only after the loop exits (line 78), so
a cancel requested while `paused` stays `true` is never observed — the
loop result is `none` (still waiting) on any observation window in which
`paused` is constantly `true`, here witnessed on three polls with
`cancel_requested` also constantly `true`, while the loop the spec
describes exits with a cancellation.  The general characterization shows
the loop's outcome depends only on the first poll at which `paused` is
`false`. -/
theorem c2_pause_wait_ignores_cancel :
    pauseWaitCode (List.replicate 3 (true, true)) = none ∧
    pauseWaitSpec (List.replicate 3 (true, true)) = some true ∧
    (∀ tr : List (Bool × Bool),
      pauseWaitCode tr = (tr.find? (fun x => !x.1)).map Prod.snd) := by
  refine ⟨by decide, by decide, ?_⟩
  intro tr
  induction tr with
  | nil => rfl
  | cons x rest ih =>
    obtain ⟨p, c⟩ := x
    cases p <;> simp [pauseWaitCode, List.find?, ih]

/-- C9: when the size field is empty the UI passes `0.1` (line 218), and
the constructor's `threshold_gb or 1.0` (line 29) keeps the non-zero
`0.1`, so the scan's effective threshold is `0.1` GiB. -/
theorem c9_default_threshold :
    effThr (startThreshold none) = 1 / 10 ∧
    ∀ fs extsIn ca eo,
      runScan fs (startThreshold none) extsIn ca eo = runScan fs (1 / 10) extsIn ca eo := by
  constructor
  · norm_num [effThr, startThreshold]
  · intro fs extsIn ca eo
    rfl

/-- C10: constructor normalization (line 30) discards entries that strip
to the empty string, so a filter input of only whitespace/empty strings
yields an empty `extensions` list, and with an empty list the extension
test at line 53 never skips a file. -/
theorem c10_whitespace_filter (extsIn : List String) (h : ∀ s ∈ extsIn, pyStrip s = "") :
    initExtensions extsIn = [] ∧ ∀ name, extSkip (initExtensions extsIn) name = false := by
  have he : initExtensions extsIn = [] := by
    unfold initExtensions
    have hfil : extsIn.filter (fun e => !(pyStrip e == "")) = [] := by
      apply List.filter_eq_nil_iff.mpr
      intro a ha
      simp [h a ha]
    rw [hfil]
    rfl
  refine ⟨he, fun name => ?_⟩
  rw [he]
  rfl

/-- Witness for C10 at the concrete filter input `["  ", ""]`. -/
theorem c10_whitespace_filter_witness :
    initExtensions ["  ", ""] = [] ∧ ∀ name, extSkip (initExtensions ["  ", ""]) name = false :=
  c10_whitespace_filter ["  ", ""] (by decide)

theorem effThr_eq (t : ℚ) (h : t ≠ 0) : effThr t = t := if_neg h

/-- Evaluation rule for `keep` with an empty filter, a present file and a
successful probe above threshold. -/
theorem keep_eval (thr : ℚ) (d name : String) (bytes : Nat)
    (hthr : thr < (bytes : ℚ) / (1024 ^ 3)) :
    keep thr [] d ⟨name, true, some bytes⟩ =
      some ⟨name, d ++ "/" ++ name, (bytes : ℚ) / (1024 ^ 2), (bytes : ℚ) / (1024 ^ 3)⟩ := by
  unfold keep
  rw [show extSkip [] name = false from rfl]
  simp [hthr]

theorem extSkip_false_spec (exts : List String) (name : String)
    (h : extSkip exts name = false) (hne : exts ≠ []) :
    exts.any (fun e => strEndsWith (pyLower name) e) = true := by
  unfold extSkip at h
  have he : exts.isEmpty = false := by
    cases exts with
    | nil => exact absurd rfl hne
    | cons a l => rfl
  rw [he] at h
  simpa using h

/-- Inversion of `keep`: everything that holds of a kept candidate. -/
theorem keep_some_spec (thr : ℚ) (exts : List String) (d : String) (f : FileEntry) (c : Cand)
    (h : keep thr exts d f = some c) :
    ∃ bytes : Nat, f.probe = some bytes ∧ f.present = true ∧
      c = ⟨f.name, d ++ "/" ++ f.name, (bytes : ℚ) / (1024 ^ 2), (bytes : ℚ) / (1024 ^ 3)⟩ ∧
      thr < (bytes : ℚ) / (1024 ^ 3) ∧ extSkip exts f.name = false := by
  unfold keep at h
  by_cases hs : extSkip exts f.name = true
  · rw [hs] at h
    simp at h
  · have hs' : extSkip exts f.name = false := by simpa using hs
    rw [hs'] at h
    simp only [if_false, Bool.false_eq_true] at h
    cases hp : f.present with
    | false =>
      rw [hp] at h
      simp at h
    | true =>
      rw [hp] at h
      simp only [Bool.not_true, Bool.false_eq_true, if_false] at h
      cases hb : f.probe with
      | none =>
        rw [hb] at h
        simp at h
      | some bytes =>
        rw [hb] at h
        simp only [] at h
        by_cases ht : thr < (bytes : ℚ) / (1024 ^ 3)
        · rw [if_pos ht] at h
          exact ⟨bytes, rfl, rfl, (Option.some.injEq _ _ ▸ h).symm, ht, hs'⟩
        · rw [if_neg ht] at h
          simp at h

/-! Enumeration-phase lemmas. -/

theorem enumFrom_fst_none (thr : ℚ) (exts : List String) (files : List (String × FileEntry)) :
    ∀ k, (enumFrom thr exts none k files).1 = some (enumPure thr exts files) := by
  induction files with
  | nil => intro k; rfl
  | cons df rest ih =>
    intro k
    cases hk : keep thr exts df.1 df.2 <;>
      simp [enumFrom, isCancelled, enumPure, List.filterMap_cons, hk, ih (k + 1)]

theorem enumFrom_fst_late (thr : ℚ) (exts : List String) (j : Nat)
    (files : List (String × FileEntry)) :
    ∀ k, k + files.length ≤ j →
      (enumFrom thr exts (some j) k files).1 = some (enumPure thr exts files) := by
  induction files with
  | nil => intro k _; rfl
  | cons df rest ih =>
    intro k hk
    have hc : isCancelled (some j) k = false := by
      simp only [isCancelled, decide_eq_false_iff_not]
      simp only [List.length_cons] at hk
      omega
    have hrec := ih (k + 1) (by simp only [List.length_cons] at hk; omega)
    cases hkeep : keep thr exts df.1 df.2 <;>
      simp [enumFrom, hc, enumPure, List.filterMap_cons, hkeep, hrec]

theorem enumFrom_fst_early (thr : ℚ) (exts : List String) (j : Nat)
    (files : List (String × FileEntry)) :
    ∀ k, k ≤ j → j < k + files.length →
      (enumFrom thr exts (some j) k files).1 = none := by
  induction files with
  | nil =>
    intro k h1 h2
    simp only [List.length_nil, Nat.add_zero] at h2
    omega
  | cons df rest ih =>
    intro k h1 h2
    by_cases hjk : j ≤ k
    · have hc : isCancelled (some j) k = true := by
        simp [isCancelled, hjk]
      simp [enumFrom, hc]
    · have hc : isCancelled (some j) k = false := by
        simp only [isCancelled, decide_eq_false_iff_not]
        omega
      have hrec := ih (k + 1) (by omega) (by simp only [List.length_cons] at h2; omega)
      cases hkeep : keep thr exts df.1 df.2 <;>
        simp [enumFrom, hc, hkeep, hrec]

theorem enumFrom_snd_none (thr : ℚ) (exts : List String) (files : List (String × FileEntry)) :
    ∀ k, (enumFrom thr exts none k files).2 = files.length := by
  induction files with
  | nil => intro k; rfl
  | cons df rest ih =>
    intro k
    cases hk : keep thr exts df.1 df.2 <;>
      simp [enumFrom, isCancelled, hk, ih (k + 1)]

theorem enumFrom_fst_some_inv (thr : ℚ) (exts : List String) (ca : Option Nat)
    (files : List (String × FileEntry)) :
    ∀ k cs, (enumFrom thr exts ca k files).1 = some cs → cs = enumPure thr exts files := by
  induction files with
  | nil =>
    intro k cs h
    simp only [enumFrom] at h
    cases h
    rfl
  | cons df rest ih =>
    intro k cs h
    by_cases hc : isCancelled ca k = true
    · rw [enumFrom, if_pos hc] at h
      cases h
    · have hc' : isCancelled ca k = false := by simpa using hc
      rw [enumFrom, if_neg (by simp [hc'])] at h
      cases hkeep : keep thr exts df.1 df.2 with
      | none =>
        rw [hkeep] at h
        simp only [enumPure, List.filterMap_cons, hkeep]
        exact ih (k + 1) cs h
      | some c =>
        rw [hkeep] at h
        simp only [Option.map_eq_some'] at h
        obtain ⟨cs', hcs', rfl⟩ := h
        simp only [enumPure, List.filterMap_cons, hkeep]
        rw [ih (k + 1) cs' hcs']
        rfl

/-! Emission-phase lemmas. -/

theorem cutoff_le (ca : Option Nat) (start len : Nat) : cutoff ca start len ≤ len := by
  cases ca with
  | none => exact Nat.le_refl _
  | some j => exact Nat.min_le_left _ _

theorem cutoff_succ (ca : Option Nat) (k n : Nat) (h : isCancelled ca k = false) :
    cutoff ca k (n + 1) = cutoff ca (k + 1) n + 1 := by
  cases ca with
  | none => rfl
  | some j =>
    have hj : k < j := by
      simp only [isCancelled, decide_eq_false_iff_not] at h
      omega
    have h2 : j - k = (j - (k + 1)) + 1 := by omega
    simp [cutoff, h2, Nat.succ_min_succ]

/-- Closed form of the emission loop: it emits the steps of the first
`cutoff` candidates and then ends either with `cancelled` (cutoff strictly
inside the list) or with `completed` carrying every record. -/
theorem emitFrom_eq (total : Nat) (eo : Nat → Nat) (ca : Option Nat) (base : Nat) :
    ∀ (cs : List Cand) (i : Nat) (acc : List FileRecord),
      emitFrom total eo ca base i acc cs =
        emitAll total eo i (cs.take (cutoff ca (base + i) cs.length)) ++
          (if cutoff ca (base + i) cs.length < cs.length then [Event.cancelled]
           else [Event.completed (acc.reverse ++ cs.map toRecord)]) := by
  intro cs
  induction cs with
  | nil =>
    intro i acc
    have h0 : cutoff ca (base + i) 0 = 0 := by
      cases ca with
      | none => rfl
      | some j => simp [cutoff]
    simp [emitFrom, emitAll, h0]
  | cons c rest ih =>
    intro i acc
    by_cases hc : isCancelled ca (base + i) = true
    · have h0 : cutoff ca (base + i) (rest.length + 1) = 0 := by
        cases ca with
        | none => simp [isCancelled] at hc
        | some j =>
          have hj : j ≤ base + i := by simpa [isCancelled] using hc
          simp [cutoff, Nat.sub_eq_zero_of_le hj]
      simp [emitFrom, hc, h0, emitAll]
    · have hc' : isCancelled ca (base + i) = false := by simpa using hc
      have hcut := cutoff_succ ca (base + i) rest.length hc'
      have ihh := ih (i + 1) (toRecord c :: acc)
      have hstep : emitFrom total eo ca base i acc (c :: rest) =
          emitStep total eo i c ++ emitFrom total eo ca base (i + 1) (toRecord c :: acc) rest := by
        rw [emitFrom, if_neg (by simp [hc'])]
      rw [hstep, ihh]
      simp only [List.length_cons, hcut, List.take_succ_cons]
      rw [show emitAll total eo i (c :: List.take (cutoff ca (base + i + 1) rest.length) rest) =
            emitStep total eo i c ++
              emitAll total eo (i + 1) (List.take (cutoff ca (base + i + 1) rest.length) rest)
          from rfl]
      rw [List.append_assoc]
      congr 1
      congr 1
      by_cases hlt : cutoff ca (base + i + 1) rest.length < rest.length
      · rw [if_pos (show cutoff ca (base + (i + 1)) rest.length < rest.length from hlt),
          if_pos (show cutoff ca (base + i + 1) rest.length + 1 < rest.length + 1 by omega)]
      · rw [if_neg (show ¬ cutoff ca (base + (i + 1)) rest.length < rest.length from hlt),
          if_neg (show ¬ (cutoff ca (base + i + 1) rest.length + 1 < rest.length + 1) by omega)]
        simp

theorem discovered_append (xs ys : List Event) :
    discovered (xs ++ ys) = discovered xs ++ discovered ys :=
  List.filterMap_append xs ys _

theorem percents_append (xs ys : List Event) :
    percents (xs ++ ys) = percents xs ++ percents ys :=
  List.filterMap_append xs ys _

theorem discovered_emitAll (total : Nat) (eo : Nat → Nat) (cs : List Cand) :
    ∀ i, discovered (emitAll total eo i cs) = cs.map toRecord := by
  induction cs with
  | nil => intro i; rfl
  | cons c rest ih =>
    intro i
    rw [show emitAll total eo i (c :: rest) =
          emitStep total eo i c ++ emitAll total eo (i + 1) rest from rfl]
    rw [discovered_append, ih (i + 1)]
    rfl

theorem percents_emitAll (total : Nat) (eo : Nat → Nat) (cs : List Cand) :
    ∀ i, percents (emitAll total eo i cs) =
      (List.range cs.length).map (fun k => progressPercent (i + k) total) := by
  induction cs with
  | nil => intro i; rfl
  | cons c rest ih =>
    intro i
    rw [show emitAll total eo i (c :: rest) =
          emitStep total eo i c ++ emitAll total eo (i + 1) rest from rfl]
    rw [percents_append, ih (i + 1)]
    rw [show percents (emitStep total eo i c) = [progressPercent i total] from rfl]
    rw [show (c :: rest).length = rest.length + 1 from rfl, List.range_succ_eq_map]
    rw [List.map_cons, List.map_map]
    have hfun : (List.range rest.length).map ((fun k => progressPercent (i + k) total) ∘ Nat.succ) =
        (List.range rest.length).map (fun k => progressPercent (i + 1 + k) total) := by
      apply List.map_congr_left
      intro k _
      simp only [Function.comp_apply]
      congr 1
      omega
    rw [hfun, Nat.add_zero]
    rfl

theorem completed_not_mem_emitAll (total : Nat) (eo : Nat → Nat) (cs : List Cand)
    (res : List FileRecord) : ∀ i, Event.completed res ∉ emitAll total eo i cs := by
  induction cs with
  | nil => intro i; simp [emitAll]
  | cons c rest ih =>
    intro i
    simp [emitAll, emitStep, ih (i + 1)]

theorem cancelled_not_mem_emitAll (total : Nat) (eo : Nat → Nat) (cs : List Cand) :
    ∀ i, Event.cancelled ∉ emitAll total eo i cs := by
  induction cs with
  | nil => intro i; simp [emitAll]
  | cons c rest ih =>
    intro i
    simp [emitAll, emitStep, ih (i + 1)]

/-- C3 (amended): during enumeration the `cancel_requested` flag is read
once per file (line 47 sits inside the inner loop over `filenames`), not
once per directory: a cancel-free enumeration performs exactly one read per
walked file, and a cancel that lands before the read of any file — also in
the middle of a directory's file list — makes the whole run terminate
immediately with a single `Cancelled` event and no other output. -/
theorem c3_cancel_checked_per_file (fs : List (String × List FileEntry)) (thr : ℚ)
    (extsIn : List String) (eo : Nat → Nat) (j : Nat) (hj : j < (walkFiles fs).length) :
    (enumFrom (effThr thr) (initExtensions extsIn) none 0 (walkFiles fs)).2 =
      (walkFiles fs).length ∧
    runScan fs thr extsIn (some j) eo = [Event.cancelled] := by
  constructor
  · exact enumFrom_snd_none (effThr thr) (initExtensions extsIn) (walkFiles fs) 0
  · have h := enumFrom_fst_early (effThr thr) (initExtensions extsIn) j (walkFiles fs) 0
      (Nat.zero_le j) (by simpa using hj)
    unfold runScan
    simp [h]

/-- Witness for C3 at a concrete input: one directory with two files and a
cancel landing before the first file's read. -/
theorem c3_cancel_checked_per_file_witness :
    (enumFrom (effThr 1) (initExtensions []) none 0
        (walkFiles [("/d", [⟨"f1", true, none⟩, ⟨"f2", true, none⟩])])).2 =
      (walkFiles [("/d", [⟨"f1", true, none⟩, ⟨"f2", true, none⟩])]).length ∧
    runScan [("/d", [⟨"f1", true, none⟩, ⟨"f2", true, none⟩])] 1 [] (some 0) (fun _ => 0) =
      [Event.cancelled] :=
  c3_cancel_checked_per_file [("/d", [⟨"f1", true, none⟩, ⟨"f2", true, none⟩])] 1 [] (fun _ => 0)
    0 (by decide)

/-- Counterexample to C3 as stated: for one directory holding two files, a
cancel-free enumeration reads the flag twice — once per file — and not
once, the number of directories. -/
theorem c3_counterexample :
    (enumFrom 1 [] none 0 (walkFiles [("/d", [⟨"f1", true, none⟩, ⟨"f2", true, none⟩])])).2 = 2 ∧
    [("/d", [(⟨"f1", true, none⟩ : FileEntry), ⟨"f2", true, none⟩])].length = 1 ∧
    ¬ ((enumFrom 1 [] none 0 (walkFiles [("/d", [⟨"f1", true, none⟩, ⟨"f2", true, none⟩])])).2 =
        [("/d", [(⟨"f1", true, none⟩ : FileEntry), ⟨"f2", true, none⟩])].length) := by
  refine ⟨?_, rfl, ?_⟩ <;> decide

/-- C8 (amended): a scan whose enumeration produces zero candidates emits
exactly `Progress(100, "No files found above threshold.")` — with the
source's trailing period — followed by `Completed` with an empty result
list, and no `FileDiscovered` event (lines 67-71). -/
theorem c8_zero_candidates (fs : List (String × List FileEntry)) (thr : ℚ)
    (extsIn : List String) (ca : Option Nat) (eo : Nat → Nat)
    (h : (enumFrom (effThr thr) (initExtensions extsIn) ca 0 (walkFiles fs)).1 = some []) :
    runScan fs thr extsIn ca eo = [Event.progress 100 noFilesMsg, Event.completed []] ∧
    discovered (runScan fs thr extsIn ca eo) = [] := by
  have hr : runScan fs thr extsIn ca eo =
      [Event.progress 100 noFilesMsg, Event.completed []] := by
    unfold runScan
    simp [h]
  exact ⟨hr, by rw [hr]; rfl⟩

/-- Witness for C8 at the empty directory tree. -/
theorem c8_zero_candidates_witness :
    runScan [] 1 [] none (fun _ => 0) = [Event.progress 100 noFilesMsg, Event.completed []] ∧
    discovered (runScan [] 1 [] none (fun _ => 0)) = [] :=
  c8_zero_candidates [] 1 [] none (fun _ => 0) rfl

/-- Counterexample to C8 as stated: the emitted message carries a trailing
period, so it is not the string `"No files found above threshold"` that the
claim quotes. -/
theorem c8_counterexample :
    runScan [] 1 [] none (fun _ => 0) =
      [Event.progress 100 "No files found above threshold.", Event.completed []] ∧
    "No files found above threshold." ≠ "No files found above threshold" := by
  exact ⟨by decide, by decide⟩

theorem ratFloor_mono {r s : ℚ} (h : r ≤ s) : Rat.floor r ≤ Rat.floor s := by
  rw [ratFloor_eq_intFloor, ratFloor_eq_intFloor]
  exact Int.floor_le_floor h

theorem roundHalfEven_floor_le (r : ℚ) : Rat.floor r ≤ roundHalfEven r := by
  unfold roundHalfEven
  split_ifs <;> omega

theorem roundHalfEven_le_floor_add_one (r : ℚ) : roundHalfEven r ≤ Rat.floor r + 1 := by
  unfold roundHalfEven
  split_ifs <;> omega

theorem roundHalfEven_eq_of_lo (r : ℚ) (n : ℤ) (h1 : (n : ℚ) ≤ r)
    (h2 : r < (n : ℚ) + 1 / 2) : roundHalfEven r = n := by
  have hf : Rat.floor r = n := by
    rw [ratFloor_eq_intFloor]
    exact Int.floor_eq_iff.2 ⟨h1, lt_of_lt_of_le h2 (by norm_num)⟩
  unfold roundHalfEven
  rw [hf, if_pos (by linarith)]

theorem roundHalfEven_mono {r s : ℚ} (h : r ≤ s) : roundHalfEven r ≤ roundHalfEven s := by
  have hfl : Rat.floor r ≤ Rat.floor s := ratFloor_mono h
  by_cases heq : Rat.floor r = Rat.floor s
  · unfold roundHalfEven
    rw [heq]
    split_ifs <;> first | omega | linarith
  · calc roundHalfEven r ≤ Rat.floor r + 1 := roundHalfEven_le_floor_add_one r
      _ ≤ Rat.floor s := by omega
      _ ≤ roundHalfEven s := roundHalfEven_floor_le s

theorem two_zpow_log_le (q : ℚ) (hq : 0 < q) : (2 : ℚ) ^ Int.log 2 q ≤ q := by
  have h := Int.zpow_log_le_self (b := 2) (r := q) (by norm_num) hq
  simpa using h

theorem lt_two_zpow_log_succ (q : ℚ) : q < (2 : ℚ) ^ (Int.log 2 q + 1) := by
  have h := Int.lt_zpow_succ_log_self (b := 2) (by norm_num) q
  simpa using h

theorem intLog2_eq (q : ℚ) (e : ℤ) (hq : 0 < q) (h1 : (2 : ℚ) ^ e ≤ q)
    (h2 : q < 2 ^ (e + 1)) : Int.log 2 q = e := by
  rcases lt_trichotomy (Int.log 2 q) e with hlt | hlt | hlt
  · have ha : q < (2 : ℚ) ^ (Int.log 2 q + 1) := lt_two_zpow_log_succ q
    have hb : (2 : ℚ) ^ (Int.log 2 q + 1) ≤ 2 ^ e :=
      zpow_le_zpow_right₀ (by norm_num) (by omega)
    linarith
  · exact hlt
  · have ha : (2 : ℚ) ^ Int.log 2 q ≤ q := two_zpow_log_le q hq
    have hb : (2 : ℚ) ^ (e + 1) ≤ 2 ^ Int.log 2 q :=
      zpow_le_zpow_right₀ (by norm_num) (by omega)
    linarith

theorem floatRound_eval (q : ℚ) (e m : ℤ) (hq : 0 < q) (h1 : (2 : ℚ) ^ e ≤ q)
    (h2 : q < 2 ^ (e + 1)) (hm : roundHalfEven (q / 2 ^ (e - 52)) = m) :
    floatRound q = (m : ℚ) * 2 ^ (e - 52) := by
  unfold floatRound
  rw [if_neg (not_le.mpr hq), intLog2_eq q e hq h1 h2, hm]

theorem floatRound_le_zpow {q : ℚ} (hq : 0 < q) :
    floatRound q ≤ 2 ^ (Int.log 2 q + 1) := by
  unfold floatRound
  rw [if_neg (not_le.mpr hq)]
  have hpow : (0 : ℚ) < 2 ^ (Int.log 2 q - 52) := zpow_pos (by norm_num) _
  have hr : q / 2 ^ (Int.log 2 q - 52) < ((9007199254740992 : ℤ) : ℚ) := by
    rw [div_lt_iff hpow]
    calc q < 2 ^ (Int.log 2 q + 1) := lt_two_zpow_log_succ q
      _ = ((9007199254740992 : ℤ) : ℚ) * 2 ^ (Int.log 2 q - 52) := by
        rw [show ((9007199254740992 : ℤ) : ℚ) = (2 : ℚ) ^ (53 : ℤ) from by norm_num]
        rw [← zpow_add₀ (two_ne_zero)]
        congr 1
        omega
  have hfl : Rat.floor (q / 2 ^ (Int.log 2 q - 52)) < 9007199254740992 := by
    rw [ratFloor_eq_intFloor, Int.floor_lt]
    exact hr
  calc (roundHalfEven (q / 2 ^ (Int.log 2 q - 52)) : ℚ) * 2 ^ (Int.log 2 q - 52)
      ≤ ((9007199254740992 : ℤ) : ℚ) * 2 ^ (Int.log 2 q - 52) := by
        apply mul_le_mul_of_nonneg_right _ hpow.le
        have hle : roundHalfEven (q / 2 ^ (Int.log 2 q - 52)) ≤ 9007199254740992 := by
          have hb := roundHalfEven_le_floor_add_one (q / 2 ^ (Int.log 2 q - 52))
          omega
        exact_mod_cast hle
    _ = 2 ^ (Int.log 2 q + 1) := by
        rw [show ((9007199254740992 : ℤ) : ℚ) = (2 : ℚ) ^ (53 : ℤ) from by norm_num]
        rw [← zpow_add₀ (two_ne_zero)]
        congr 1
        omega

theorem zpow_le_floatRound {q : ℚ} (hq : 0 < q) :
    2 ^ Int.log 2 q ≤ floatRound q := by
  unfold floatRound
  rw [if_neg (not_le.mpr hq)]
  have hpow : (0 : ℚ) < 2 ^ (Int.log 2 q - 52) := zpow_pos (by norm_num) _
  have hge : ((4503599627370496 : ℤ) : ℚ) ≤ q / 2 ^ (Int.log 2 q - 52) := by
    rw [le_div_iff hpow]
    calc ((4503599627370496 : ℤ) : ℚ) * 2 ^ (Int.log 2 q - 52)
        = 2 ^ Int.log 2 q := by
          rw [show ((4503599627370496 : ℤ) : ℚ) = (2 : ℚ) ^ (52 : ℤ) from by norm_num]
          rw [← zpow_add₀ (two_ne_zero)]
          congr 1
          omega
      _ ≤ q := two_zpow_log_le q hq
  have hfl : (4503599627370496 : ℤ) ≤ Rat.floor (q / 2 ^ (Int.log 2 q - 52)) := by
    rw [ratFloor_eq_intFloor, Int.le_floor]
    exact hge
  calc (2 : ℚ) ^ Int.log 2 q
      = ((4503599627370496 : ℤ) : ℚ) * 2 ^ (Int.log 2 q - 52) := by
        rw [show ((4503599627370496 : ℤ) : ℚ) = (2 : ℚ) ^ (52 : ℤ) from by norm_num]
        rw [← zpow_add₀ (two_ne_zero)]
        congr 1
        omega
    _ ≤ (roundHalfEven (q / 2 ^ (Int.log 2 q - 52)) : ℚ) * 2 ^ (Int.log 2 q - 52) := by
        apply mul_le_mul_of_nonneg_right _ hpow.le
        have hle : (4503599627370496 : ℤ) ≤ roundHalfEven (q / 2 ^ (Int.log 2 q - 52)) := by
          have hb := roundHalfEven_floor_le (q / 2 ^ (Int.log 2 q - 52))
          omega
        exact_mod_cast hle

theorem floatRound_pos {q : ℚ} (hq : 0 < q) : 0 < floatRound q :=
  lt_of_lt_of_le (zpow_pos (by norm_num) _) (zpow_le_floatRound hq)

theorem floatRound_mono {q s : ℚ} (hq : 0 < q) (h : q ≤ s) :
    floatRound q ≤ floatRound s := by
  have hs : 0 < s := lt_of_lt_of_le hq h
  have hle : Int.log 2 q ≤ Int.log 2 s := Int.log_mono_right hq h
  by_cases he : Int.log 2 q = Int.log 2 s
  · unfold floatRound
    rw [if_neg (not_le.mpr hq), if_neg (not_le.mpr hs), he]
    have hdiv : q / 2 ^ (Int.log 2 s - 52) ≤ s / 2 ^ (Int.log 2 s - 52) :=
      (div_le_div_right (zpow_pos (by norm_num) _)).mpr h
    apply mul_le_mul_of_nonneg_right _ (zpow_pos (a := (2 : ℚ)) (by norm_num) _).le
    exact_mod_cast roundHalfEven_mono hdiv
  · calc floatRound q ≤ 2 ^ (Int.log 2 q + 1) := floatRound_le_zpow hq
      _ ≤ 2 ^ Int.log 2 s := zpow_le_zpow_right₀ (by norm_num) (by omega)
      _ ≤ floatRound s := zpow_le_floatRound hs

theorem floatRound_zero : floatRound 0 = 0 := by
  unfold floatRound
  rw [if_pos le_rfl]

theorem progressPercent_total_zero (i : Nat) : progressPercent i 0 = 0 := by
  unfold progressPercent
  rw [show ((0 : ℕ) : ℚ) = 0 from by norm_num, div_zero, floatRound_zero, zero_mul,
    floatRound_zero,
    show Rat.floor (0 : ℚ) = 0 from by rw [ratFloor_eq_intFloor]; exact Int.floor_zero]
  rfl

theorem progressPercent_mono (total : Nat) : Monotone (fun i => progressPercent i total) := by
  apply monotone_nat_of_le_succ
  intro n
  show progressPercent n total ≤ progressPercent (n + 1) total
  by_cases htot : total = 0
  · subst htot
    rw [progressPercent_total_zero, progressPercent_total_zero]
  · unfold progressPercent
    have htpos : (0 : ℚ) < (total : ℚ) := by
      exact_mod_cast Nat.pos_of_ne_zero htot
    have hq1 : (0 : ℚ) < ((n : ℚ) + 1) / (total : ℚ) := by positivity
    have hstep : ((n : ℚ) + 1) / (total : ℚ) ≤ (((n + 1 : ℕ) : ℚ) + 1) / (total : ℚ) := by
      apply (div_le_div_right htpos).mpr
      push_cast
      linarith
    have hA := floatRound_mono hq1 hstep
    have hApos := floatRound_pos hq1
    have hmul : floatRound (((n : ℚ) + 1) / (total : ℚ)) * 100 ≤
        floatRound ((((n + 1 : ℕ) : ℚ) + 1) / (total : ℚ)) * 100 :=
      mul_le_mul_of_nonneg_right hA (by norm_num)
    have hB := floatRound_mono (mul_pos hApos (by norm_num)) hmul
    rw [ratFloor_eq_intFloor, ratFloor_eq_intFloor]
    exact Int.toNat_le_toNat (Int.floor_le_floor hB)

theorem chain_le_map_range (f : ℕ → ℕ) (hf : Monotone f) (K : ℕ) :
    List.Chain' (· ≤ ·) ((List.range K).map f) := by
  rw [List.chain'_iff_pairwise, List.pairwise_map]
  exact (List.pairwise_lt_range K).imp (fun h => hf (Nat.le_of_lt h))

theorem getLast?_map_range (f : ℕ → ℕ) (K : ℕ) (h : K ≠ 0) :
    ((List.range K).map f).getLast? = some (f (K - 1)) := by
  obtain ⟨L, rfl⟩ : ∃ L, K = L + 1 := ⟨K - 1, by omega⟩
  rw [List.range_succ, List.map_append]
  simp

theorem floatRound_one : floatRound 1 = 1 := by
  have hm : roundHalfEven ((1 : ℚ) / 2 ^ ((0 : ℤ) - 52)) = 4503599627370496 := by
    rw [show (1 : ℚ) / 2 ^ ((0 : ℤ) - 52) = 4503599627370496 from by norm_num]
    exact roundHalfEven_eq_of_lo _ _ (by norm_num) (by norm_num)
  rw [floatRound_eval 1 0 4503599627370496 one_pos (by norm_num) (by norm_num) hm]
  norm_num

theorem floatRound_hundred : floatRound 100 = 100 := by
  have hm : roundHalfEven ((100 : ℚ) / 2 ^ ((6 : ℤ) - 52)) = 7036874417766400 := by
    rw [show (100 : ℚ) / 2 ^ ((6 : ℤ) - 52) = 7036874417766400 from by norm_num]
    exact roundHalfEven_eq_of_lo _ _ (by norm_num) (by norm_num)
  rw [floatRound_eval 100 6 7036874417766400 (by norm_num) (by norm_num) (by norm_num) hm]
  norm_num

theorem progressPercent_last (M : Nat) (h : M ≠ 0) : progressPercent (M - 1) M = 100 := by
  unfold progressPercent
  have hM : (0 : ℚ) < (M : ℚ) := by exact_mod_cast Nat.pos_of_ne_zero h
  have hdiv : (((M - 1 : ℕ) : ℚ) + 1) / (M : ℚ) = 1 := by
    have h1 : (1 : ℕ) ≤ M := Nat.one_le_iff_ne_zero.mpr h
    have hcast : ((M - 1 : ℕ) : ℚ) + 1 = (M : ℚ) := by
      push_cast [Nat.cast_sub h1]
      ring
    rw [hcast, div_self (ne_of_gt hM)]
  rw [hdiv, floatRound_one, one_mul, floatRound_hundred]
  rw [show Rat.floor (100 : ℚ) = 100 from by rw [ratFloor_eq_intFloor]; simp]
  rfl

theorem progressPercent_28_100 : progressPercent 28 100 = 28 := by
  unfold progressPercent
  rw [show (((28 : ℕ) : ℚ) + 1) / ((100 : ℕ) : ℚ) = 29 / 100 from by norm_num]
  have hm1 : roundHalfEven ((29 / 100 : ℚ) / 2 ^ ((-2 : ℤ) - 52)) = 5224175567749775 := by
    rw [show (29 / 100 : ℚ) / 2 ^ ((-2 : ℤ) - 52) = 522417556774977536 / 100 from by
      norm_num]
    exact roundHalfEven_eq_of_lo _ _ (by norm_num) (by norm_num)
  rw [floatRound_eval (29 / 100) (-2) 5224175567749775 (by norm_num) (by norm_num)
    (by norm_num) hm1]
  rw [show ((5224175567749775 : ℤ) : ℚ) * 2 ^ ((-2 : ℤ) - 52) * 100 =
      130604389193744375 / 4503599627370496 from by norm_num]
  have hm2 : roundHalfEven ((130604389193744375 / 4503599627370496 : ℚ) /
      2 ^ ((4 : ℤ) - 52)) = 8162774324609023 := by
    rw [show (130604389193744375 / 4503599627370496 : ℚ) / 2 ^ ((4 : ℤ) - 52) =
        522417556774977500 / 64 from by norm_num]
    exact roundHalfEven_eq_of_lo _ _ (by norm_num) (by norm_num)
  rw [floatRound_eval (130604389193744375 / 4503599627370496) 4 8162774324609023
    (by norm_num) (by norm_num) (by norm_num) hm2]
  rw [show ((8162774324609023 : ℤ) : ℚ) * 2 ^ ((4 : ℤ) - 52) =
      8162774324609023 / 281474976710656 from by norm_num]
  rw [show Rat.floor ((8162774324609023 : ℚ) / 281474976710656) = 28 from by
    rw [ratFloor_eq_intFloor]
    exact Int.floor_eq_iff.2 ⟨by norm_num, by norm_num⟩]
  rfl

/-- C7 (corrected): line 87 computes the percent as
`int((i + 1) / total_files * 100)` in IEEE binary64 float arithmetic, not
as exact `(i + 1) * 100 / total` integer division — the two differ, e.g.
at candidate 29 of 100 the program reports 28.  The rest of the claim does
hold of the float computation: across any single run the percent values of
successive `progress` events never decrease (float rounding is monotone),
and whenever the run ends with a `Completed` event the last `progress`
event carries exactly 100 (`total / total * 100` is exactly `100.0`). -/
theorem c7_progress_monotone (fs : List (String × List FileEntry)) (thr : ℚ)
    (extsIn : List String) (ca : Option Nat) (eo : Nat → Nat) :
    List.Chain' (· ≤ ·) (percents (runScan fs thr extsIn ca eo)) ∧
    ((∃ res, Event.completed res ∈ runScan fs thr extsIn ca eo) →
      (percents (runScan fs thr extsIn ca eo)).getLast? = some 100) := by
  unfold runScan
  cases h : (enumFrom (effThr thr) (initExtensions extsIn) ca 0 (walkFiles fs)).1 with
  | none =>
    simp only [h]
    constructor
    · simp [percents]
    · rintro ⟨res, hres⟩
      simp at hres
  | some cs =>
    simp only [h]
    cases cs with
    | nil =>
      constructor
      · simp [percents, noFilesMsg]
      · intro _
        rfl
    | cons c0 rest =>
      set cs := c0 :: rest with hcs
      have hne : cs.length ≠ 0 := by simp [hcs]
      have hemp : cs.isEmpty = false := by simp [hcs]
      rw [hemp]
      simp only [Bool.false_eq_true, if_false]
      rw [emitFrom_eq]
      set cut := cutoff ca ((walkFiles fs).length + 0) cs.length with hcut
      have hcle : cut ≤ cs.length := cutoff_le ca _ _
      have hperc : ∀ tail, (tail = [Event.cancelled] ∨ ∃ res, tail = [Event.completed res]) →
          percents (emitAll cs.length eo 0 (cs.take cut) ++ tail) =
            (List.range (cs.take cut).length).map (fun k => progressPercent k cs.length) := by
        intro tail htail
        rw [percents_append, percents_emitAll]
        have hzero : ((List.range (cs.take cut).length).map
            (fun k => progressPercent (0 + k) cs.length)) =
            (List.range (cs.take cut).length).map (fun k => progressPercent k cs.length) := by
          apply List.map_congr_left
          intro k _
          rw [Nat.zero_add]
        rw [hzero]
        rcases htail with rfl | ⟨res, rfl⟩
        · rw [show percents [Event.cancelled] = [] from rfl, List.append_nil]
        · rw [show percents [Event.completed res] = [] from rfl, List.append_nil]
      by_cases hlt : cut < cs.length
      · rw [if_pos hlt]
        constructor
        · rw [hperc [Event.cancelled] (Or.inl rfl)]
          exact chain_le_map_range _ (progressPercent_mono cs.length) _
        · rintro ⟨res, hres⟩
          rw [List.mem_append] at hres
          rcases hres with hres | hres
          · exact absurd hres (completed_not_mem_emitAll _ _ _ _ _)
          · simp at hres
      · rw [if_neg hlt]
        have hcl : cut = cs.length := by omega
        constructor
        · rw [hperc [Event.completed (List.reverse [] ++ cs.map toRecord)] (Or.inr ⟨_, rfl⟩)]
          exact chain_le_map_range _ (progressPercent_mono cs.length) _
        · intro _
          rw [hperc [Event.completed (List.reverse [] ++ cs.map toRecord)] (Or.inr ⟨_, rfl⟩)]
          rw [hcl, List.take_length]
          rw [getLast?_map_range _ _ hne]
          rw [progressPercent_last cs.length hne]

/-- Witness for C7: a scan that reaches `Completed` (the empty scan) has
final percent exactly 100. -/
theorem c7_progress_monotone_witness :
    (percents (runScan [] 1 [] none (fun _ => 0))).getLast? = some 100 :=
  (c7_progress_monotone [] 1 [] none (fun _ => 0)).2 ⟨[], by decide⟩

theorem runScan_eq (fs : List (String × List FileEntry)) (thr : ℚ) (extsIn : List String)
    (ca : Option Nat) (eo : Nat → Nat) :
    runScan fs thr extsIn ca eo =
      match (enumFrom (effThr thr) (initExtensions extsIn) ca 0 (walkFiles fs)).1 with
      | none => [Event.cancelled]
      | some cs =>
        if cs.isEmpty then [Event.progress 100 noFilesMsg, Event.completed []]
        else emitFrom cs.length eo ca (walkFiles fs).length 0 [] cs := rfl

theorem runScan_some (fs : List (String × List FileEntry)) (thr : ℚ) (extsIn : List String)
    (ca : Option Nat) (eo : Nat → Nat) (cs : List Cand)
    (h : (enumFrom (effThr thr) (initExtensions extsIn) ca 0 (walkFiles fs)).1 = some cs)
    (hemp : cs.isEmpty = false) :
    runScan fs thr extsIn ca eo = emitFrom cs.length eo ca (walkFiles fs).length 0 [] cs := by
  rw [runScan_eq, h]
  simp [hemp]

theorem filterMap_replicate_of_some {α β : Type} (g : α → Option β) (a : α) (b : β)
    (hg : g a = some b) :
    ∀ n, List.filterMap g (List.replicate n a) = List.replicate n b := by
  intro n
  induction n with
  | zero => rfl
  | succ n ih =>
    rw [List.replicate_succ, List.replicate_succ]
    simp [List.filterMap_cons, hg, ih]

/-- Counterexample to C7 as stated: percent is not the exact
`(indexProcessed) * 100 / total` integer division.  In a run over 100
qualifying files the stream's percent values are `progressPercent k 100`
for `k = 0, …, 99`, and the 29th of them (`k = 28`) is 28 — the float
computation `int(29 / 100 * 100)` — whereas `29 * 100 / 100 = 29`. -/
theorem c7_counterexample :
    percents (runScan [("/d", List.replicate 100 ⟨"f", true, some 2147483648⟩)] 1 [] none
        (fun _ => 0)) =
      (List.range 100).map (fun k => progressPercent k 100) ∧
    progressPercent 28 100 = 28 ∧ (28 + 1) * 100 / 100 = 29 ∧ (28 : ℕ) ≠ 29 := by
  refine ⟨?_, progressPercent_28_100, by norm_num, by norm_num⟩
  have hkeep : keep (effThr 1) [] "/d" ⟨"f", true, some 2147483648⟩ =
      some ⟨"f", "/d/f", (2147483648 : ℚ) / (1024 ^ 2), (2147483648 : ℚ) / (1024 ^ 3)⟩ := by
    rw [effThr_eq 1 (by norm_num)]
    rw [keep_eval 1 "/d" "f" 2147483648 (by norm_num)]
    rw [show ("/d" ++ "/" ++ "f" : String) = "/d/f" from rfl]
    norm_num
  have hwalk : walkFiles [("/d", List.replicate 100
      (⟨"f", true, some 2147483648⟩ : FileEntry))] =
      List.replicate 100 ("/d", (⟨"f", true, some 2147483648⟩ : FileEntry)) := by
    unfold walkFiles
    rw [List.foldr_cons, List.foldr_nil, List.append_nil, List.map_replicate]
  have henumpure : enumPure (effThr 1) (initExtensions [])
      (List.replicate 100 ("/d", (⟨"f", true, some 2147483648⟩ : FileEntry))) =
      List.replicate 100 (⟨"f", "/d/f", (2147483648 : ℚ) / (1024 ^ 2),
        (2147483648 : ℚ) / (1024 ^ 3)⟩ : Cand) := by
    rw [show initExtensions [] = ([] : List String) from rfl]
    unfold enumPure
    exact filterMap_replicate_of_some
      (fun df => keep (effThr 1) [] df.1 df.2)
      ("/d", (⟨"f", true, some 2147483648⟩ : FileEntry)) _ hkeep 100
  have henum : (enumFrom (effThr 1) (initExtensions []) none 0
      (walkFiles [("/d", List.replicate 100 ⟨"f", true, some 2147483648⟩)])).1 =
      some (List.replicate 100 (⟨"f", "/d/f", (2147483648 : ℚ) / (1024 ^ 2),
        (2147483648 : ℚ) / (1024 ^ 3)⟩ : Cand)) := by
    rw [enumFrom_fst_none, hwalk, henumpure]
  have hemp : (List.replicate 100 (⟨"f", "/d/f", (2147483648 : ℚ) / (1024 ^ 2),
      (2147483648 : ℚ) / (1024 ^ 3)⟩ : Cand)).isEmpty = false := rfl
  rw [runScan_some _ _ _ _ _ _ henum hemp]
  rw [emitFrom_eq]
  rw [show (List.replicate 100 (⟨"f", "/d/f", (2147483648 : ℚ) / (1024 ^ 2),
      (2147483648 : ℚ) / (1024 ^ 3)⟩ : Cand)).length = 100 from by
    rw [List.length_replicate]]
  rw [show cutoff none ((walkFiles [("/d", List.replicate 100
      (⟨"f", true, some 2147483648⟩ : FileEntry))]).length + 0) 100 = 100 from rfl]
  rw [if_neg (show ¬ (100 : ℕ) < 100 by omega)]
  rw [show List.take 100 (List.replicate 100 (⟨"f", "/d/f", (2147483648 : ℚ) / (1024 ^ 2),
      (2147483648 : ℚ) / (1024 ^ 3)⟩ : Cand)) = List.replicate 100 (⟨"f", "/d/f",
      (2147483648 : ℚ) / (1024 ^ 2), (2147483648 : ℚ) / (1024 ^ 3)⟩ : Cand) from by simp]
  rw [percents_append, percents_emitAll]
  rw [show percents [Event.completed (List.reverse ([] : List FileRecord) ++
      (List.replicate 100 (⟨"f", "/d/f", (2147483648 : ℚ) / (1024 ^ 2),
        (2147483648 : ℚ) / (1024 ^ 3)⟩ : Cand)).map toRecord)] = ([] : List Nat) from rfl]
  rw [List.append_nil, List.length_replicate]
  apply List.map_congr_left
  intro k _
  rw [Nat.zero_add]

/-- C5: if the cancel request lands after `N` emissions — the first
emission-phase read returning `true` is the one before candidate `N` — and
`N` is less than the number `M` of candidates, the stream carries exactly
the first `N` records as `FileDiscovered` events (each a whole record of a
kept candidate), ends in `Cancelled`, and carries no `Completed`. -/
theorem c5_cancel_after_n (fs : List (String × List FileEntry)) (thr : ℚ)
    (extsIn : List String) (eo : Nat → Nat) (N : Nat)
    (hN : N < (enumPure (effThr thr) (initExtensions extsIn) (walkFiles fs)).length) :
    discovered (runScan fs thr extsIn (some ((walkFiles fs).length + N)) eo) =
      ((enumPure (effThr thr) (initExtensions extsIn) (walkFiles fs)).take N).map toRecord ∧
    (discovered (runScan fs thr extsIn (some ((walkFiles fs).length + N)) eo)).length = N ∧
    (runScan fs thr extsIn (some ((walkFiles fs).length + N)) eo).getLast? =
      some Event.cancelled ∧
    ∀ res, Event.completed res ∉ runScan fs thr extsIn (some ((walkFiles fs).length + N)) eo := by
  set cs := enumPure (effThr thr) (initExtensions extsIn) (walkFiles fs) with hcsdef
  have henum := enumFrom_fst_late (effThr thr) (initExtensions extsIn)
    ((walkFiles fs).length + N) (walkFiles fs) 0 (by omega)
  have hemp : cs.isEmpty = false := by
    cases hc : cs with
    | nil => rw [hc] at hN; simp at hN
    | cons a l => rfl
  have hcut : cutoff (some ((walkFiles fs).length + N)) ((walkFiles fs).length + 0) cs.length
      = N := by
    simp only [cutoff, Nat.add_zero]
    omega
  have hrun : runScan fs thr extsIn (some ((walkFiles fs).length + N)) eo =
      emitAll cs.length eo 0 (cs.take N) ++ [Event.cancelled] := by
    rw [runScan_some fs thr extsIn _ eo cs henum hemp, emitFrom_eq, hcut, if_pos hN]
  refine ⟨?_, ?_, ?_, ?_⟩
  · rw [hrun, discovered_append, discovered_emitAll]
    rw [show discovered [Event.cancelled] = [] from rfl, List.append_nil]
  · rw [hrun, discovered_append, discovered_emitAll]
    rw [show discovered [Event.cancelled] = [] from rfl, List.append_nil]
    rw [List.length_map, List.length_take]
    omega
  · rw [hrun]
    simp
  · intro res
    rw [hrun, List.mem_append]
    rintro (hmem | hmem)
    · exact completed_not_mem_emitAll _ _ _ _ _ hmem
    · simp at hmem

theorem enumPure_c5 :
    enumPure (effThr 1) (initExtensions [])
        (walkFiles [("/d", [⟨"f1", true, some 2147483648⟩, ⟨"f2", true, some 3221225472⟩])]) =
      [⟨"f1", "/d/f1", (2147483648 : ℚ) / (1024 ^ 2), (2147483648 : ℚ) / (1024 ^ 3)⟩,
       ⟨"f2", "/d/f2", (3221225472 : ℚ) / (1024 ^ 2), (3221225472 : ℚ) / (1024 ^ 3)⟩] := by
  rw [show effThr 1 = 1 from effThr_eq 1 (by norm_num)]
  rw [show initExtensions [] = [] from rfl]
  rw [show walkFiles [("/d", [⟨"f1", true, some 2147483648⟩, ⟨"f2", true, some 3221225472⟩])] =
      [("/d", (⟨"f1", true, some 2147483648⟩ : FileEntry)),
       ("/d", (⟨"f2", true, some 3221225472⟩ : FileEntry))] from rfl]
  unfold enumPure
  simp only [List.filterMap_cons, List.filterMap_nil,
    keep_eval 1 "/d" "f1" 2147483648 (by norm_num),
    keep_eval 1 "/d" "f2" 3221225472 (by norm_num)]
  rw [show ("/d" ++ "/" ++ "f1" : String) = "/d/f1" from rfl,
    show ("/d" ++ "/" ++ "f2" : String) = "/d/f2" from rfl]
  norm_num

/-- Witness for C5: two candidates, cancel after one emission. -/
theorem c5_cancel_after_n_witness :
    discovered (runScan [("/d", [⟨"f1", true, some 2147483648⟩, ⟨"f2", true, some 3221225472⟩])]
        1 [] (some ((walkFiles [("/d", [⟨"f1", true, some 2147483648⟩,
          ⟨"f2", true, some 3221225472⟩])]).length + 1)) (fun _ => 0)) =
      ((enumPure (effThr 1) (initExtensions [])
        (walkFiles [("/d", [⟨"f1", true, some 2147483648⟩,
          ⟨"f2", true, some 3221225472⟩])])).take 1).map toRecord ∧
    (discovered (runScan [("/d", [⟨"f1", true, some 2147483648⟩, ⟨"f2", true, some 3221225472⟩])]
        1 [] (some ((walkFiles [("/d", [⟨"f1", true, some 2147483648⟩,
          ⟨"f2", true, some 3221225472⟩])]).length + 1)) (fun _ => 0))).length = 1 ∧
    (runScan [("/d", [⟨"f1", true, some 2147483648⟩, ⟨"f2", true, some 3221225472⟩])]
        1 [] (some ((walkFiles [("/d", [⟨"f1", true, some 2147483648⟩,
          ⟨"f2", true, some 3221225472⟩])]).length + 1)) (fun _ => 0)).getLast? =
      some Event.cancelled ∧
    ∀ res, Event.completed res ∉
      runScan [("/d", [⟨"f1", true, some 2147483648⟩, ⟨"f2", true, some 3221225472⟩])]
        1 [] (some ((walkFiles [("/d", [⟨"f1", true, some 2147483648⟩,
          ⟨"f2", true, some 3221225472⟩])]).length + 1)) (fun _ => 0) :=
  c5_cancel_after_n [("/d", [⟨"f1", true, some 2147483648⟩, ⟨"f2", true, some 3221225472⟩])]
    1 [] (fun _ => 0) 1 (by rw [enumPure_c5]; decide)

theorem discovered_runScan_sub (fs : List (String × List FileEntry)) (thr : ℚ)
    (extsIn : List String) (ca : Option Nat) (eo : Nat → Nat) (r : FileRecord)
    (h : r ∈ discovered (runScan fs thr extsIn ca eo)) :
    ∃ c, c ∈ enumPure (effThr thr) (initExtensions extsIn) (walkFiles fs) ∧ r = toRecord c := by
  cases henum : (enumFrom (effThr thr) (initExtensions extsIn) ca 0 (walkFiles fs)).1 with
  | none =>
    rw [runScan_eq] at h
    simp only [henum] at h
    simp [discovered] at h
  | some cs =>
    have hcs := enumFrom_fst_some_inv (effThr thr) (initExtensions extsIn) ca
      (walkFiles fs) 0 cs henum
    cases hemp : cs.isEmpty with
    | true =>
      rw [runScan_eq] at h
      simp only [henum, hemp] at h
      simp [discovered] at h
    | false =>
      rw [runScan_some fs thr extsIn ca eo cs henum hemp] at h
      rw [emitFrom_eq, discovered_append] at h
      have htail : discovered (if cutoff ca ((walkFiles fs).length + 0) cs.length < cs.length
          then [Event.cancelled]
          else [Event.completed (List.reverse [] ++ cs.map toRecord)]) = [] := by
        split <;> rfl
      rw [htail, List.append_nil, discovered_emitAll] at h
      obtain ⟨c, hc, hcr⟩ := List.mem_map.1 h
      exact ⟨c, hcs ▸ List.mem_of_mem_take hc, hcr.symm⟩

/-- C1 (amended): every record carried by a `FileDiscovered` event comes
from a walked file whose probe succeeded, whose raw size in GiB strictly
exceeds the effective threshold, and — when the normalized extension
filter is non-empty — whose lowercased name ends with some filter entry;
the record's carried sizes are 2-decimal roundings of the raw sizes (so
the carried `sizeGb` itself need not exceed the threshold). -/
theorem c1_emitted_records (fs : List (String × List FileEntry)) (thr : ℚ)
    (extsIn : List String) (ca : Option Nat) (eo : Nat → Nat) (r : FileRecord)
    (hr : Event.fileDiscovered r ∈ runScan fs thr extsIn ca eo) :
    ∃ (d : String) (f : FileEntry) (bytes : Nat),
      (d, f) ∈ walkFiles fs ∧ f.probe = some bytes ∧ f.present = true ∧
      effThr thr < (bytes : ℚ) / (1024 ^ 3) ∧
      r = ⟨f.name, d ++ "/" ++ f.name, pyRound2 ((bytes : ℚ) / (1024 ^ 2)),
        pyRound2 ((bytes : ℚ) / (1024 ^ 3))⟩ ∧
      (initExtensions extsIn ≠ [] →
        (initExtensions extsIn).any (fun e => strEndsWith (pyLower f.name) e) = true) := by
  have hd : r ∈ discovered (runScan fs thr extsIn ca eo) :=
    List.mem_filterMap.2 ⟨Event.fileDiscovered r, hr, rfl⟩
  obtain ⟨c, hc, hrc⟩ := discovered_runScan_sub fs thr extsIn ca eo r hd
  obtain ⟨df, hdf, hkeep⟩ := List.mem_filterMap.1 hc
  obtain ⟨bytes, hp, hpres, hcand, hthr, hskip⟩ :=
    keep_some_spec (effThr thr) (initExtensions extsIn) df.1 df.2 c hkeep
  refine ⟨df.1, df.2, bytes, hdf, hp, hpres, hthr, ?_, ?_⟩
  · rw [hrc, hcand]
    rfl
  · intro hne
    exact extSkip_false_spec _ _ hskip hne

theorem toRecord_c1 :
    toRecord ⟨"a.bin", "/d/a.bin", (110000000 : ℚ) / (1024 ^ 2), (110000000 : ℚ) / (1024 ^ 3)⟩ =
      ⟨"a.bin", "/d/a.bin", 1049 / 10, 1 / 10⟩ := by
  unfold toRecord
  rw [pyRound2_eq_of_bounds ((110000000 : ℚ) / (1024 ^ 2)) 10490 (by norm_num) (by norm_num)]
  rw [pyRound2_eq_of_bounds ((110000000 : ℚ) / (1024 ^ 3)) 10 (by norm_num) (by norm_num)]
  norm_num

/-- Concrete run for C1: one file of 110000000 bytes (≈ 0.1024 GiB raw,
which the f-string rounds to 0.10) against threshold 0.1. -/
theorem run_c1_eq :
    runScan [("/d", [⟨"a.bin", true, some 110000000⟩])] (1 / 10) [] none (fun _ => 0) =
      [Event.fileDiscovered
        (toRecord ⟨"a.bin", "/d/a.bin", (110000000 : ℚ) / (1024 ^ 2),
          (110000000 : ℚ) / (1024 ^ 3)⟩),
       Event.progress 100 (progressMsg "a.bin" 0 1 0),
       Event.eta (etaMsg 0),
       Event.completed
        [toRecord ⟨"a.bin", "/d/a.bin", (110000000 : ℚ) / (1024 ^ 2),
          (110000000 : ℚ) / (1024 ^ 3)⟩]] := by
  have hkeep : keep (effThr (1 / 10)) [] "/d" ⟨"a.bin", true, some 110000000⟩ =
      some ⟨"a.bin", "/d/a.bin", (110000000 : ℚ) / (1024 ^ 2),
        (110000000 : ℚ) / (1024 ^ 3)⟩ := by
    rw [effThr_eq (1 / 10) (by norm_num)]
    rw [keep_eval (1 / 10) "/d" "a.bin" 110000000 (by norm_num)]
    rw [show ("/d" ++ "/" ++ "a.bin" : String) = "/d/a.bin" from rfl]
    norm_num
  have henum : (enumFrom (effThr (1 / 10)) (initExtensions []) none 0
      (walkFiles [("/d", [⟨"a.bin", true, some 110000000⟩])])).1 =
      some [⟨"a.bin", "/d/a.bin", (110000000 : ℚ) / (1024 ^ 2),
        (110000000 : ℚ) / (1024 ^ 3)⟩] := by
    rw [enumFrom_fst_none]
    rw [show initExtensions [] = [] from rfl]
    unfold enumPure
    rw [show walkFiles [("/d", [⟨"a.bin", true, some 110000000⟩])] =
        [("/d", (⟨"a.bin", true, some 110000000⟩ : FileEntry))] from rfl]
    simp only [List.filterMap_cons, List.filterMap_nil, hkeep]
  rw [runScan_some _ _ _ _ _ _ henum rfl]
  rw [show (walkFiles [("/d", [(⟨"a.bin", true, some 110000000⟩ : FileEntry)])]).length = 1
    from rfl]
  rw [emitFrom_eq]
  rw [show List.length [(⟨"a.bin", "/d/a.bin", (110000000 : ℚ) / (1024 ^ 2),
      (110000000 : ℚ) / (1024 ^ 3)⟩ : Cand)] = 1 from rfl]
  rw [show cutoff none (1 + 0) 1 = 1 from rfl]
  rw [if_neg (show ¬ (1 : ℕ) < 1 by omega)]
  rw [show emitAll 1 (fun _ => 0) 0 (List.take 1 [(⟨"a.bin", "/d/a.bin",
      (110000000 : ℚ) / (1024 ^ 2), (110000000 : ℚ) / (1024 ^ 3)⟩ : Cand)]) =
      [Event.fileDiscovered (toRecord ⟨"a.bin", "/d/a.bin",
        (110000000 : ℚ) / (1024 ^ 2), (110000000 : ℚ) / (1024 ^ 3)⟩),
       Event.progress (progressPercent 0 1) (progressMsg "a.bin" 0 1 0),
       Event.eta (etaMsg 0)] from rfl]
  rw [show progressPercent 0 1 = 100 from progressPercent_last 1 one_ne_zero]
  rfl

/-- Counterexample to C1 as stated: against threshold 0.1 the 110000000-byte
file qualifies (raw 0.10244… GiB > 0.1), but the emitted record's rounded
`sizeGb` is exactly 0.10, which is not strictly greater than the
threshold. -/
theorem c1_counterexample :
    Event.fileDiscovered ⟨"a.bin", "/d/a.bin", 1049 / 10, 1 / 10⟩ ∈
      runScan [("/d", [⟨"a.bin", true, some 110000000⟩])] (1 / 10) [] none (fun _ => 0) ∧
    ¬ ((1 : ℚ) / 10 <
        (⟨"a.bin", "/d/a.bin", 1049 / 10, 1 / 10⟩ : FileRecord).sizeGb) := by
  constructor
  · rw [run_c1_eq, toRecord_c1]
    exact List.mem_cons_self _ _
  · norm_num

/-- Witness for C1 at the concrete 110000000-byte file. -/
theorem c1_emitted_records_witness :
    Event.fileDiscovered (toRecord ⟨"a.bin", "/d/a.bin", (110000000 : ℚ) / (1024 ^ 2),
        (110000000 : ℚ) / (1024 ^ 3)⟩) ∈
      runScan [("/d", [⟨"a.bin", true, some 110000000⟩])] (1 / 10) [] none (fun _ => 0) ∧
    ∃ (d : String) (f : FileEntry) (bytes : Nat),
      (d, f) ∈ walkFiles [("/d", [⟨"a.bin", true, some 110000000⟩])] ∧
      f.probe = some bytes ∧ f.present = true ∧
      effThr (1 / 10) < (bytes : ℚ) / (1024 ^ 3) ∧
      (toRecord ⟨"a.bin", "/d/a.bin", (110000000 : ℚ) / (1024 ^ 2),
          (110000000 : ℚ) / (1024 ^ 3)⟩ : FileRecord) =
        ⟨f.name, d ++ "/" ++ f.name, pyRound2 ((bytes : ℚ) / (1024 ^ 2)),
          pyRound2 ((bytes : ℚ) / (1024 ^ 3))⟩ ∧
      (initExtensions [] ≠ [] →
        (initExtensions []).any (fun e => strEndsWith (pyLower f.name) e) = true) := by
  have hmem : Event.fileDiscovered (toRecord ⟨"a.bin", "/d/a.bin",
      (110000000 : ℚ) / (1024 ^ 2), (110000000 : ℚ) / (1024 ^ 3)⟩) ∈
      runScan [("/d", [⟨"a.bin", true, some 110000000⟩])] (1 / 10) [] none (fun _ => 0) := by
    rw [run_c1_eq]
    exact List.mem_cons_self _ _
  exact ⟨hmem, c1_emitted_records [("/d", [⟨"a.bin", true, some 110000000⟩])] (1 / 10) []
    none (fun _ => 0) _ hmem⟩

/-! Aggregation lemmas. -/

theorem mem_foldl_seenStep (l : List String) :
    ∀ (acc : List String) (x : String), x ∈ l.foldl seenStep acc ↔ x ∈ acc ∨ x ∈ l := by
  induction l with
  | nil => intro acc x; simp
  | cons a rest ih =>
    intro acc x
    rw [List.foldl_cons, ih]
    unfold seenStep
    by_cases h : acc.contains a = true
    · rw [if_pos h]
      have ha : a ∈ acc := by simpa using h
      simp only [List.mem_cons]
      constructor
      · rintro (hx | hx)
        · exact Or.inl hx
        · exact Or.inr (Or.inr hx)
      · rintro (hx | hx | hx)
        · exact Or.inl hx
        · exact Or.inl (hx ▸ ha)
        · exact Or.inr hx
    · rw [if_neg h]
      simp only [List.mem_append, List.mem_singleton, List.mem_cons]
      tauto

theorem mem_firstSeen (l : List String) (x : String) : x ∈ firstSeen l ↔ x ∈ l := by
  unfold firstSeen
  rw [mem_foldl_seenStep]
  simp

theorem nodup_foldl_seenStep (l : List String) :
    ∀ acc, acc.Nodup → (l.foldl seenStep acc).Nodup := by
  induction l with
  | nil => intro acc h; exact h
  | cons a rest ih =>
    intro acc h
    rw [List.foldl_cons]
    apply ih
    unfold seenStep
    by_cases hc : acc.contains a = true
    · rw [if_pos hc]
      exact h
    · rw [if_neg hc]
      have ha : a ∉ acc := by simpa using hc
      simp [List.nodup_append, h, ha]

theorem nodup_firstSeen (l : List String) : (firstSeen l).Nodup :=
  nodup_foldl_seenStep l [] List.nodup_nil

theorem firstSeen_append (l : List String) (p : String) :
    firstSeen (l ++ [p]) = seenStep (firstSeen l) p := by
  unfold firstSeen
  rw [List.foldl_append]
  rfl

theorem aggregate_append (rs : List FileRecord) (r : FileRecord) :
    aggregate (rs ++ [r]) = addRow (aggregate rs) r := by
  unfold aggregate
  rw [List.foldl_append]
  rfl

/-- Closed form of the aggregator state after ingesting `rs` in order: the
group keys are the parent directories in first-seen order, and each group's
children are exactly the ingested records with that parent, in ingest
order. -/
theorem aggregate_closed (rs : List FileRecord) :
    aggregate rs = (firstSeen (rs.map (fun r => dirname r.path))).map
      (fun f => (f, rs.filter (fun r => dirname r.path == f))) := by
  induction rs using List.reverseRecOn with
  | nil => rfl
  | append_singleton rs r ih =>
    rw [aggregate_append, ih, List.map_append]
    rw [show List.map (fun r => dirname r.path) [r] = [dirname r.path] from rfl]
    rw [firstSeen_append]
    unfold addRow seenStep
    by_cases hpmem : dirname r.path ∈ firstSeen (rs.map (fun r => dirname r.path))
    · have hany : ((firstSeen (rs.map (fun r => dirname r.path))).map
          (fun f => (f, rs.filter (fun r => dirname r.path == f)))).any
            (fun g => g.1 == dirname r.path) = true := by
        rw [List.any_eq_true]
        refine ⟨(dirname r.path, rs.filter (fun x => dirname x.path == dirname r.path)), ?_, ?_⟩
        · exact List.mem_map_of_mem _ hpmem
        · simp
      have hcont : (firstSeen (rs.map (fun r => dirname r.path))).contains (dirname r.path)
          = true := by simpa using hpmem
      rw [if_pos hany, if_pos hcont, List.map_map]
      apply List.map_congr_left
      intro f hf
      simp only [Function.comp_apply]
      by_cases hfp : f = dirname r.path
      · rw [if_pos (by simp [hfp])]
        rw [List.filter_append]
        rw [show List.filter (fun x => dirname x.path == f) [r] = [r] from by
          simp [List.filter_cons, hfp]]
      · rw [if_neg (by simpa using hfp)]
        rw [List.filter_append]
        rw [show List.filter (fun x => dirname x.path == f) [r] = [] from by
          simp [List.filter_cons]
          intro heq
          exact absurd heq.symm hfp]
        rw [List.append_nil]
    · have hany : ((firstSeen (rs.map (fun r => dirname r.path))).map
          (fun f => (f, rs.filter (fun r => dirname r.path == f)))).any
            (fun g => g.1 == dirname r.path) = false := by
        rw [List.any_eq_false]
        intro g hg
        obtain ⟨f, hf, rfl⟩ := List.mem_map.1 hg
        simp only [beq_iff_eq]
        intro hfp
        exact hpmem (hfp ▸ hf)
      have hcont : (firstSeen (rs.map (fun r => dirname r.path))).contains (dirname r.path)
          = false := by
        by_cases hb : (firstSeen (rs.map (fun r => dirname r.path))).contains (dirname r.path)
          = true
        · exact absurd (by simpa using hb) hpmem
        · simpa using hb
      rw [if_neg (by simp [hany]), if_neg (by simpa using hpmem), List.map_append]
      have hfilnil : rs.filter (fun x => dirname x.path == dirname r.path) = [] := by
        rw [List.filter_eq_nil_iff]
        intro x hx hbeq
        have hx2 : dirname x.path = dirname r.path := by simpa using hbeq
        exact hpmem ((mem_firstSeen _ _).2 (hx2 ▸ List.mem_map_of_mem _ hx))
      congr 1
      · apply List.map_congr_left
        intro f hf
        have hfp : ¬ f = dirname r.path := fun h => hpmem (h ▸ hf)
        rw [List.filter_append]
        rw [show List.filter (fun x => dirname x.path == f) [r] = [] from by
          simp [List.filter_cons]
          intro heq
          exact absurd heq.symm hfp]
        rw [List.append_nil]
      · rw [show List.map (fun f => (f, (rs ++ [r]).filter (fun x => dirname x.path == f)))
            [dirname r.path] =
            [(dirname r.path, (rs ++ [r]).filter (fun x => dirname x.path == dirname r.path))]
          from rfl]
        rw [List.filter_append, hfilnil]
        simp

/-- C6: ingesting records in emission order keeps the aggregation invariant
(lines 250-264): group keys are pairwise distinct (one group per parent
directory), each group's children are exactly the ingested records whose
parent is that key, in ingestion order (so a record ingested once appears
exactly once), and groups are ordered by first sighting of their folder;
the spec's three-record example yields exactly the two expected groups. -/
theorem c6_aggregation :
    (∀ rs : List FileRecord,
      aggregate rs =
        (firstSeen (rs.map (fun r => dirname r.path))).map
          (fun f => (f, rs.filter (fun r => dirname r.path == f))) ∧
      ((aggregate rs).map Prod.fst).Nodup) ∧
    aggregate [⟨"x.txt", "/a/b/x.txt", 1, 1⟩, ⟨"y.txt", "/a/b/y.txt", 2, 2⟩,
        ⟨"z.txt", "/a/c/z.txt", 3, 3⟩] =
      [("/a/b", [⟨"x.txt", "/a/b/x.txt", 1, 1⟩, ⟨"y.txt", "/a/b/y.txt", 2, 2⟩]),
       ("/a/c", [⟨"z.txt", "/a/c/z.txt", 3, 3⟩])] := by
  refine ⟨fun rs => ⟨aggregate_closed rs, ?_⟩, by decide⟩
  rw [aggregate_closed, List.map_map]
  rw [show (Prod.fst ∘ fun f => (f, rs.filter (fun r => dirname r.path == f))) = id from by
    funext f
    rfl]
  rw [List.map_id]
  exact nodup_firstSeen _

/-! Ranking lemmas. -/

theorem pairLt_asymm (a b : ℚ × String) (h : pairLt a b) : ¬ pairLt b a := by
  rcases h with h1 | ⟨he, h2⟩
  · rintro (h3 | ⟨he3, h4⟩)
    · exact absurd h3 (lt_asymm h1)
    · rw [he3] at h1
      exact lt_irrefl _ h1
  · rintro (h3 | ⟨he3, h4⟩)
    · rw [he] at h3
      exact lt_irrefl _ h3
    · exact absurd h4 (lt_asymm h2)

theorem pairLt_comparison (a b c : ℚ × String) (h : pairLt a c) : pairLt a b ∨ pairLt b c := by
  rcases h with h1 | ⟨he, h2⟩
  · rcases lt_or_le a.1 b.1 with hb | hb
    · exact Or.inl (Or.inl hb)
    · exact Or.inr (Or.inl (lt_of_le_of_lt hb h1))
  · rcases lt_trichotomy a.1 b.1 with hb | hb | hb
    · exact Or.inl (Or.inl hb)
    · rcases lt_or_le a.2 b.2 with hs | hs
      · exact Or.inl (Or.inr ⟨hb, hs⟩)
      · exact Or.inr (Or.inr ⟨hb.symm.trans he, lt_of_le_of_lt hs h2⟩)
    · exact Or.inr (Or.inl (he ▸ hb))

instance : IsTotal (ℚ × String) pairGe :=
  ⟨fun a b => by
    by_cases h : pairLt a b
    · exact Or.inr (pairLt_asymm a b h)
    · exact Or.inl h⟩

instance : IsTrans (ℚ × String) pairGe :=
  ⟨fun a b c hab hbc hac => (pairLt_comparison a b c hac).elim hab hbc⟩

/-- C4 (amended): the funnel ranking sorts the collected `(size, label)`
pairs by the full pair descending — size descending with ties broken by
label descending (Python compares the whole tuple), not by encounter
order — it permutes the collected data, and an empty input yields an empty
sequence. -/
theorem c4_rank_sorted :
    (∀ groups : List (String × List FileRecord),
      List.Sorted pairGe (rank groups) ∧ (rank groups).Perm (chartData groups)) ∧
    rank [] = [] :=
  ⟨fun groups => ⟨List.sorted_insertionSort pairGe (chartData groups),
    List.perm_insertionSort pairGe (chartData groups)⟩, rfl⟩

/-- Counterexample to C4 as stated: sizes 5, 1, 5 with labels "a", "b",
"c" in encounter order rank as c before a — the tie is broken by label
descending, not by encounter order (which would put a before c). -/
theorem c4_counterexample :
    rank [("/f", [⟨"a", "/f/a", 5, 5⟩, ⟨"b", "/f/b", 1, 1⟩, ⟨"c", "/f/c", 5, 5⟩])] =
      [(5, "c"), (5, "a"), (1, "b")] ∧
    rank [("/f", [⟨"a", "/f/a", 5, 5⟩, ⟨"b", "/f/b", 1, 1⟩, ⟨"c", "/f/c", 5, 5⟩])] ≠
      [(5, "a"), (5, "c"), (1, "b")] := by
  have hab : pairGe ((5 : ℚ), "a") (1, "b") := by
    rintro (h | ⟨h, _⟩)
    · norm_num at h
    · norm_num at h
  have hbc : ¬ pairGe ((1 : ℚ), "b") (5, "c") := by
    intro h
    exact h (Or.inl (by norm_num))
  have hax : ¬ pairGe ((5 : ℚ), "a") (5, "c") := by
    intro h
    refine h (Or.inr ⟨rfl, ?_⟩)
    rw [String.lt_iff_toList_lt]
    decide
  have h2 : List.insertionSort pairGe [((1 : ℚ), "b"), (5, "c")] = [((5 : ℚ), "c"), (1, "b")] := by
    rw [show List.insertionSort pairGe [((1 : ℚ), "b"), (5, "c")] =
        List.orderedInsert pairGe (1, "b") [((5 : ℚ), "c")] from rfl]
    rw [show List.orderedInsert pairGe ((1 : ℚ), "b") [((5 : ℚ), "c")] =
        if pairGe (1, "b") (5, "c") then (1, "b") :: [((5 : ℚ), "c")]
        else (5, "c") :: List.orderedInsert pairGe (1, "b") [] from rfl]
    rw [if_neg hbc]
    rfl
  have h3 : List.insertionSort pairGe [((5 : ℚ), "a"), (1, "b"), (5, "c")] =
      [((5 : ℚ), "c"), (5, "a"), (1, "b")] := by
    rw [show List.insertionSort pairGe [((5 : ℚ), "a"), (1, "b"), (5, "c")] =
        List.orderedInsert pairGe (5, "a")
          (List.insertionSort pairGe [((1 : ℚ), "b"), (5, "c")]) from rfl]
    rw [h2]
    rw [show List.orderedInsert pairGe ((5 : ℚ), "a") [((5 : ℚ), "c"), (1, "b")] =
        if pairGe (5, "a") (5, "c") then (5, "a") :: [((5 : ℚ), "c"), (1, "b")]
        else (5, "c") :: List.orderedInsert pairGe (5, "a") [((1 : ℚ), "b")] from rfl]
    rw [if_neg hax]
    rw [show List.orderedInsert pairGe ((5 : ℚ), "a") [((1 : ℚ), "b")] =
        if pairGe (5, "a") (1, "b") then (5, "a") :: [((1 : ℚ), "b")]
        else (1, "b") :: List.orderedInsert pairGe (5, "a") [] from rfl]
    rw [if_pos hab]
  have hrank : rank [("/f", [⟨"a", "/f/a", 5, 5⟩, ⟨"b", "/f/b", 1, 1⟩, ⟨"c", "/f/c", 5, 5⟩])] =
      [((5 : ℚ), "c"), (5, "a"), (1, "b")] := by
    rw [show rank [("/f", [⟨"a", "/f/a", 5, 5⟩, ⟨"b", "/f/b", 1, 1⟩, ⟨"c", "/f/c", 5, 5⟩])] =
        List.insertionSort pairGe [((5 : ℚ), "a"), (1, "b"), (5, "c")] from rfl]
    exact h3
  constructor
  · exact hrank
  · rw [hrank]
    decide
